import Mathlib

/-!
# Verification of the `cyclicbuffer` package

Shallow embedding of the Go package `cyclicbuffer` (a fixed-capacity,
thread-safe cyclic buffer) and proofs about it.

The embedding follows the source file with the richer API
(`src/unnamed/part_000`): `New`, `Append` (returning the next write
index), `AppendSafe`, `Empty`, `NotEmpty`, `CreateIterator`,
`Iterator.Value`, `Iterator.Next`, `Get`, `GetData`.

Modelling decisions, each traceable to the source:
* Go `interface{}` slots are modelled as `Option α`: `make([]interface{}, n)`
  fills the slice with `nil`, modelled as `none`; a stored value `d` is
  `some d`.
* Go `int` fields that stay non-negative in every reachable state
  (`size`, `index`, the iterator `index`) are modelled as `Nat`; the
  iterator `count` field is modelled as `Int` because `Value` decrements
  it without any guard, so it can become negative.
* The mutex is data-free; the lock/unlock calls each operation performs
  are transcribed separately as event traces (`LockEvent`) so that the
  locking discipline claims can be settled.
* Reading `cb.data[i]` is modelled with `List.getD _ i none`; in every
  theorem below the index is within bounds, where Go would not panic.
-/

namespace CyclicBufferPkg

/-- The `CyclicBuffer` struct: `data []interface{}`, `full bool`,
`size int`, `index int` (the mutex carries no data). -/
structure CyclicBuffer (α : Type) where
  data : List (Option α)
  full : Bool
  size : Nat
  index : Nat
  deriving Repr, DecidableEq

/-- `NotEmpty` returns `cb.full || (cb.index > 0)`. -/
def NotEmpty (cb : CyclicBuffer α) : Bool :=
  cb.full || decide (cb.index > 0)

/-- `Empty` returns `!cb.NotEmpty()`. -/
def Empty (cb : CyclicBuffer α) : Bool :=
  ! NotEmpty cb

/-- `New(size)`: `data = make([]interface{}, size)` (all slots `nil`),
`index = 0`, `full = false`, `size = size`. No validation of `size`
is performed; the function always returns a buffer. -/
def New (α : Type) (size : Nat) : CyclicBuffer α :=
  { data := List.replicate size none
    full := false
    size := size
    index := 0 }

/-- `Append(d)`: writes `d` into `data[index]`, increments the cursor,
wraps it to `0` (setting `full`) when it reaches `size`, stores the new
cursor and returns it. (The Go body uses a local variable `index`;
here the updated storage and cursor are written out in each branch.) -/
def Append (cb : CyclicBuffer α) (d : α) : CyclicBuffer α × Nat :=
  if cb.index + 1 ≥ cb.size then
    ({ data := cb.data.set cb.index (some d), full := true,
       size := cb.size, index := 0 }, 0)
  else
    ({ data := cb.data.set cb.index (some d), full := cb.full,
       size := cb.size, index := cb.index + 1 }, cb.index + 1)

/-- `AppendSafe(d)` calls `Append(d)` (its state effect and return value
are those of the inner `Append`; the extra lock acquisition it performs
is modelled by `appendSafeLockTrace` below). -/
def AppendSafe (cb : CyclicBuffer α) (d : α) : CyclicBuffer α × Nat :=
  Append cb d

/-- The `Iterator` struct: `index int`, `count int`, `cb *CyclicBuffer`.
The pointed-to buffer is stored by value: no operation below mutates the
buffer while an iterator is alive. -/
structure Iterator (α : Type) where
  index : Nat
  count : Int
  cb : CyclicBuffer α
  deriving Repr, DecidableEq

/-- `CreateIterator`: if `cb.full` then start at `cb.index` with
`count = cb.size`, else start at `0` with `count = cb.index`. -/
def CreateIterator (cb : CyclicBuffer α) : Iterator α :=
  if cb.full then
    { index := cb.index, count := (cb.size : Int), cb := cb }
  else
    { index := 0, count := (cb.index : Int), cb := cb }

/-- `Iterator.Value()`: reads `cb.data[index]`, advances `index` with
wraparound, decrements `count`, returns the value read. No exhaustion
check is performed. -/
def Iterator.Value (it : Iterator α) : Option α × Iterator α :=
  (it.cb.data.getD it.index none,
   { index := if it.index + 1 ≥ it.cb.size then 0 else it.index + 1,
     count := it.count - 1, cb := it.cb })

/-- `Iterator.Next()` returns `count > 0`. -/
def Iterator.Next (it : Iterator α) : Bool :=
  decide (it.count > 0)

/-- The copy loop of `Get`: `count` iterations reading `data[index]`,
advancing `index` with wraparound. -/
def getLoop (cb : CyclicBuffer α) (index : Nat) : Nat → List (Option α)
  | 0 => []
  | count + 1 =>
    cb.data.getD index none ::
      getLoop cb (if index + 1 ≥ cb.size then 0 else index + 1) count

/-- `Get()`: computes the start index and count exactly as
`CreateIterator` does, then copies `count` entries oldest-first. -/
def Get (cb : CyclicBuffer α) : List (Option α) :=
  if cb.full then getLoop cb cb.index cb.size
  else getLoop cb 0 cb.index

/-- `GetData()` returns the underlying storage as-is. -/
def GetData (cb : CyclicBuffer α) : List (Option α) :=
  cb.data

/-- Appending a whole list of values, left to right, discarding the
returned cursor positions. -/
def appendAll (cb : CyclicBuffer α) (xs : List α) : CyclicBuffer α :=
  xs.foldl (fun b x => (Append b x).1) cb

/-- Driving an iterator to exhaustion: `while it.Next() { collect it.Value() }`,
with explicit fuel (any fuel at least the initial `count` reaches
exhaustion). -/
def collectAll (it : Iterator α) : Nat → List (Option α)
  | 0 => []
  | fuel + 1 =>
    if it.Next then
      let r := it.Value
      r.1 :: collectAll r.2 fuel
    else []

/-! ## Lock traces

Each public operation's mutex usage, transcribed call for call from the
source. `sync.Mutex` is not reentrant: acquiring a lock already held by
the same goroutine blocks forever. -/

/-- A single mutex event. -/
inductive LockEvent where
  | lock
  | unlock
  deriving Repr, DecidableEq

/-- `Append` does `mutex.Lock()`, the body, `defer mutex.Unlock()`. -/
def appendLockTrace : List LockEvent :=
  [LockEvent.lock, LockEvent.unlock]

/-- `AppendSafe` does `mutex.Lock()`, then calls `Append` (which locks
and unlocks the same mutex), then `defer mutex.Unlock()`. -/
def appendSafeLockTrace : List LockEvent :=
  [LockEvent.lock] ++ appendLockTrace ++ [LockEvent.unlock]

/-- `Get` performs no mutex operation at all. -/
def getLockTrace : List LockEvent := []

/-- `CreateIterator` performs no mutex operation. -/
def createIteratorLockTrace : List LockEvent := []

/-- `Empty`/`NotEmpty` perform no mutex operation. -/
def emptyLockTrace : List LockEvent := []

/-- `Iterator.Value` performs no mutex operation. -/
def valueLockTrace : List LockEvent := []

/-- Does the trace ever acquire the (non-reentrant) mutex while the same
caller already holds it? `held` counts the currently-held acquisitions. -/
def acquiresWhileHeld : List LockEvent → Nat → Bool
  | [], _ => false
  | LockEvent.lock :: rest, held => decide (held > 0) || acquiresWhileHeld rest (held + 1)
  | LockEvent.unlock :: rest, held => acquiresWhileHeld rest (held - 1)

/-! ## Public operations as state transformers

Used to quantify over "every operation of the public interface". The
query operations (`Get`, `CreateIterator`, `Empty`, `NotEmpty`,
`GetData`) never assign to any field of the buffer, so their state
effect is the identity. -/

/-- One call of the public interface. -/
inductive Op (α : Type) where
  | append (x : α)
  | appendSafe (x : α)
  | get
  | createIterator
  | empty
  | notEmpty
  | getData
  deriving Repr, DecidableEq

/-- The effect of one public-interface call on the buffer state. -/
def applyOp (s : CyclicBuffer α) : Op α → CyclicBuffer α
  | Op.append x => (Append s x).1
  | Op.appendSafe x => (AppendSafe s x).1
  | Op.get => s
  | Op.createIterator => s
  | Op.empty => s
  | Op.notEmpty => s
  | Op.getData => s

/-- Is the operation one of the two appends (the only mutators)? -/
def Op.isAppend : Op α → Bool
  | Op.append _ => true
  | Op.appendSafe _ => true
  | _ => false

/-- The reachable buffer states: a fresh buffer, or an append applied to
a reachable state (Go's `Append` panics on a zero-size buffer — indexing
`data[0]` of an empty slice — so only positive-size states step). -/
inductive Reachable : CyclicBuffer α → Prop where
  | new (size : Nat) : Reachable (New α size)
  | append (s : CyclicBuffer α) (x : α) (hs : 0 < s.size) :
      Reachable s → Reachable (Append s x).1

/-! ## Basic facts about the operations -/

theorem Append_fst_wrap (s : CyclicBuffer α) (x : α) (h : s.index + 1 ≥ s.size) :
    (Append s x).1 =
      { data := s.data.set s.index (some x), full := true,
        size := s.size, index := 0 } := by
  unfold Append
  rw [if_pos h]

theorem Append_fst_nowrap (s : CyclicBuffer α) (x : α) (h : ¬ s.index + 1 ≥ s.size) :
    (Append s x).1 =
      { data := s.data.set s.index (some x), full := s.full,
        size := s.size, index := s.index + 1 } := by
  unfold Append
  rw [if_neg h]

theorem Append_size (s : CyclicBuffer α) (x : α) : (Append s x).1.size = s.size := by
  by_cases h : s.index + 1 ≥ s.size
  · rw [Append_fst_wrap s x h]
  · rw [Append_fst_nowrap s x h]

theorem Append_data (s : CyclicBuffer α) (x : α) :
    (Append s x).1.data = s.data.set s.index (some x) := by
  by_cases h : s.index + 1 ≥ s.size
  · rw [Append_fst_wrap s x h]
  · rw [Append_fst_nowrap s x h]

theorem appendAll_cons (s : CyclicBuffer α) (x : α) (xs : List α) :
    appendAll s (x :: xs) = appendAll (Append s x).1 xs := rfl

theorem appendAll_concat (s : CyclicBuffer α) (xs : List α) (x : α) :
    appendAll s (xs ++ [x]) = (Append (appendAll s xs) x).1 :=
  List.foldl_concat _ _ _ _

theorem appendAll_size (s : CyclicBuffer α) (xs : List α) :
    (appendAll s xs).size = s.size := by
  induction xs generalizing s with
  | nil => rfl
  | cons x xs ih => rw [appendAll_cons, ih, Append_size]

/-- Setting the element just past a left factor of an append. -/
theorem set_append_length (l1 l2 : List α) (a : α) :
    (l1 ++ l2).set l1.length a = l1 ++ l2.set 0 a := by
  induction l1 with
  | nil => rfl
  | cons b l1 ih => simp [ih]

/-! ## The copy loop

`getLoop s start count` reads `count` entries of the cyclic stream that
starts at `start`; for `count ≤ size` this is a `take` of the rotation
of the storage at `start`. -/

theorem getLoop_cyclic (s : CyclicBuffer α) (hlen : s.data.length = s.size) :
    ∀ (count start : Nat), start < s.size → count ≤ s.size →
      getLoop s start count = (s.data.drop start ++ s.data).take count := by
  intro count
  induction count with
  | zero => intro start _ _; simp [getLoop]
  | succ n ih =>
    intro start hstart hcount
    have hstart' : start < s.data.length := hlen ▸ hstart
    have hdrop : s.data.drop start = s.data[start] :: s.data.drop (start + 1) :=
      List.drop_eq_getElem_cons hstart'
    have hgetD : s.data.getD start none = s.data[start] :=
      List.getD_eq_getElem s.data none hstart'
    show s.data.getD start none
        :: getLoop s (if start + 1 ≥ s.size then 0 else start + 1) n
      = (s.data.drop start ++ s.data).take (n + 1)
    rw [hgetD, hdrop]
    by_cases hwrap : start + 1 ≥ s.size
    · have hdropnil : s.data.drop (start + 1) = [] := by
        rw [List.drop_eq_nil_iff]
        omega
      rw [if_pos hwrap, ih 0 (by omega) (by omega), hdropnil]
      simp [List.take_append_of_le_length (show n ≤ s.data.length by omega)]
    · rw [if_neg hwrap, ih (start + 1) (by omega) (by omega),
        List.cons_append, List.take_succ_cons]

theorem getLoop_spec (s : CyclicBuffer α) (hlen : s.data.length = s.size)
    (start count : Nat) (hstart : start < s.size) (hcount : count ≤ s.size) :
    getLoop s start count = (s.data.drop start ++ s.data.take start).take count := by
  rw [getLoop_cyclic s hlen count start hstart hcount]
  have hsplit : (s.data.drop start ++ s.data.take start) ++ s.data.drop start
      = s.data.drop start ++ s.data := by
    rw [List.append_assoc, List.take_append_drop]
  rw [← hsplit, List.take_append_of_le_length]
  simp only [List.length_append, List.length_drop, List.length_take]
  omega

/-! ## The abstraction relation

`represents s l` says the buffer state `s` holds exactly the logical
content `l`, oldest first. -/

/-- The buffer state `s` (with in-range cursor) holds the logical
content `l`, oldest first: when full, the rotation of the storage at
the write cursor is `l`; when not full, the first `index` slots are `l`
and the rest are still the `nil` placeholder. -/
def represents (s : CyclicBuffer α) (l : List α) : Prop :=
  s.data.length = s.size ∧ s.index < s.size ∧
  (if s.full then
     l.map some = s.data.drop s.index ++ s.data.take s.index
   else
     s.index = l.length ∧
     s.data = l.map some ++ List.replicate (s.size - l.length) none)

theorem represents_new (α : Type) (c : Nat) (hc : 0 < c) :
    represents (New α c) [] := by
  refine ⟨by simp [New], by simpa [New] using hc, ?_⟩
  simp [New]

theorem represents_length_of_full (s : CyclicBuffer α) (l : List α)
    (h : represents s l) (hfull : s.full = true) : l.length = s.size := by
  obtain ⟨hlen, hidx, hrest⟩ := h
  rw [if_pos hfull] at hrest
  have := congrArg List.length hrest
  simp at this
  omega

theorem represents_append (s : CyclicBuffer α) (l : List α) (x : α)
    (h : represents s l) :
    represents (Append s x).1
      (if l.length = s.size then l.tail ++ [x] else l ++ [x]) := by
  obtain ⟨hlen, hidx, hrest⟩ := h
  by_cases hfull : s.full
  · -- full: the oldest entry (at the write cursor) is overwritten
    have hl : l.length = s.size := represents_length_of_full s l ⟨hlen, hidx, hrest⟩ hfull
    rw [if_pos hfull] at hrest
    rw [if_pos hl]
    have hidx' : s.index < s.data.length := hlen ▸ hidx
    have hset : s.data.set s.index (some x)
        = s.data.take s.index ++ some x :: s.data.drop (s.index + 1) := by
      rw [List.set_eq_take_append_cons_drop, if_pos hidx']
    have hdrop : s.data.drop s.index = s.data[s.index] :: s.data.drop (s.index + 1) :=
      List.drop_eq_getElem_cons hidx'
    have htail : l.tail.map some = s.data.drop (s.index + 1) ++ s.data.take s.index := by
      have h2 := congrArg List.tail hrest
      rw [hdrop, List.cons_append, List.tail_cons, ← List.map_tail] at h2
      exact h2
    by_cases hwrap : s.index + 1 ≥ s.size
    · have hiv : s.index + 1 = s.size := le_antisymm (by omega) hwrap
      rw [Append_fst_wrap s x hwrap]
      refine ⟨by simpa using hlen, by dsimp only; omega, ?_⟩
      dsimp only
      rw [if_pos rfl]
      have hdropnil : s.data.drop (s.index + 1) = [] := by
        rw [List.drop_eq_nil_iff]
        omega
      rw [hdropnil, List.nil_append] at htail
      rw [List.drop_zero, List.take_zero, List.append_nil, List.map_append, htail,
        hset, hdropnil]
      simp
    · rw [Append_fst_nowrap s x hwrap]
      refine ⟨by simpa using hlen, by dsimp only; omega, ?_⟩
      dsimp only
      rw [if_pos hfull]
      have hd2 : (s.data.set s.index (some x)).drop (s.index + 1)
          = s.data.drop (s.index + 1) := List.drop_set_of_lt _ _ (by omega)
      have h5 : (s.data.take s.index).length = s.index := by
        simp [Nat.min_eq_left hidx'.le]
      have ht2 : (s.data.set s.index (some x)).take (s.index + 1)
          = s.data.take s.index ++ [some x] := by
        rw [hset, List.take_append_eq_append_take, h5,
          List.take_of_length_le (show (s.data.take s.index).length ≤ s.index + 1 by
            rw [h5]; omega)]
        have h6 : s.index + 1 - s.index = 1 := by omega
        rw [h6]
        simp
      rw [List.map_append, hd2, ht2, htail, ← List.append_assoc]
      simp
  · -- not full: a fresh slot is written
    rw [if_neg hfull] at hrest
    obtain ⟨hidxl, hdata⟩ := hrest
    have hllen : l.length < s.size := hidxl ▸ hidx
    rw [if_neg (by omega)]
    have hsetgen : ∀ (R : List (Option α)) (v : Option α),
        (l.map some ++ R).set l.length v = l.map some ++ R.set 0 v := by
      intro R v
      have h7 : l.length = (l.map some).length := by simp
      rw [h7, set_append_length]
    have hrep : s.size - l.length = (s.size - l.length - 1) + 1 := by omega
    have hset : s.data.set s.index (some x)
        = (l ++ [x]).map some ++ List.replicate (s.size - (l.length + 1)) none := by
      rw [hdata, hidxl, hsetgen, hrep, List.replicate_succ, List.set_cons_zero,
        List.map_append, List.map_cons, List.map_nil, List.append_assoc,
        List.singleton_append, Nat.sub_sub]
    by_cases hwrap : s.index + 1 ≥ s.size
    · have hiv : s.index + 1 = s.size := le_antisymm (by omega) hwrap
      rw [Append_fst_wrap s x hwrap]
      refine ⟨by simpa using hlen, by dsimp only; omega, ?_⟩
      dsimp only
      rw [if_pos rfl]
      rw [hset]
      have h8 : s.size - (l.length + 1) = 0 := by omega
      rw [h8, List.replicate_zero, List.append_nil, List.drop_zero, List.take_zero,
        List.append_nil]
    · rw [Append_fst_nowrap s x hwrap]
      refine ⟨by simpa using hlen, by dsimp only; omega, ?_⟩
      dsimp only
      rw [if_neg hfull]
      constructor
      · simp [hidxl]
      · rw [hset]
        simp [hidxl]

/-- A state satisfying the abstraction relation snapshots to exactly its
logical content. -/
theorem Get_represents (s : CyclicBuffer α) (l : List α)
    (h : represents s l) : Get s = l.map some := by
  obtain ⟨hlen, hidx, hrest⟩ := h
  by_cases hfull : s.full
  · rw [if_pos hfull] at hrest
    have hl : l.length = s.size :=
      represents_length_of_full s l ⟨hlen, hidx, by rw [if_pos hfull]; exact hrest⟩ hfull
    unfold Get
    rw [if_pos hfull, getLoop_spec s hlen s.index s.size hidx (le_refl _), ← hrest]
    have : s.size = (l.map some).length := by simp [hl]
    rw [this, List.take_length]
  · rw [if_neg hfull] at hrest
    obtain ⟨hidxl, hdata⟩ := hrest
    unfold Get
    rw [if_neg hfull]
    have hpos : 0 < s.size := by omega
    rw [getLoop_spec s hlen 0 s.index hpos hidx.le]
    simp only [List.drop_zero, List.take_zero, List.append_nil]
    rw [hdata, hidxl, List.take_append_of_le_length (by simp)]
    simp

/-- After appending `xs` to a fresh buffer of capacity `c ≥ 1`, the
logical content is the last `min c n` values of `xs`, oldest first. -/
theorem represents_appendAll (α : Type) (c : Nat) (hc : 0 < c) (xs : List α) :
    represents (appendAll (New α c) xs) (xs.drop (xs.length - c)) := by
  induction xs using List.reverseRecOn with
  | nil => simpa using represents_new α c hc
  | append_singleton xs x ih =>
    rw [appendAll_concat]
    have h := represents_append _ _ x ih
    have hsize : (appendAll (New α c) xs).size = c := by
      rw [appendAll_size]
      rfl
    rw [hsize] at h
    have hlendrop : (xs.drop (xs.length - c)).length = xs.length - (xs.length - c) := by
      simp
    by_cases hcn : xs.length < c
    · have h1 : xs.length - c = 0 := by omega
      rw [h1, List.drop_zero] at h
      rw [if_neg (by omega)] at h
      have h2 : (xs ++ [x]).length - c = 0 := by
        simp
        omega
      rw [h2, List.drop_zero]
      exact h
    · have h1 : (xs.drop (xs.length - c)).length = c := by
        rw [hlendrop]
        omega
      rw [if_pos h1, List.tail_drop] at h
      have h4 : (xs ++ [x]).length - c = xs.length - c + 1 := by
        simp
        omega
      rw [h4, List.drop_append_of_le_length (by omega)]
      exact h

/-- Every reachable state has storage of length `size` and a cursor
bounded by `size`. -/
theorem reachable_wf (s : CyclicBuffer α) (h : Reachable s) :
    s.data.length = s.size ∧ s.index ≤ s.size := by
  induction h with
  | new size => exact ⟨by simp [New], by simp [New]⟩
  | append s x hs hr ih =>
    by_cases hwrap : s.index + 1 ≥ s.size
    · rw [Append_fst_wrap s x hwrap]
      exact ⟨by simpa using ih.1, by dsimp only; omega⟩
    · rw [Append_fst_nowrap s x hwrap]
      exact ⟨by simpa using ih.1, by dsimp only; omega⟩

theorem reachable_appendAll (s : CyclicBuffer α) (xs : List α) (h : Reachable s)
    (hs : 0 < s.size) : Reachable (appendAll s xs) := by
  induction xs generalizing s with
  | nil => exact h
  | cons x xs ih =>
    rw [appendAll_cons]
    exact ih _ (Reachable.append s x hs h) (by rw [Append_size]; exact hs)

/-- Driving an iterator with a non-negative `count` to exhaustion reads
exactly the entries the copy loop of `Get` reads. -/
theorem collectAll_eq_getLoop (s : CyclicBuffer α) :
    ∀ (count start fuel : Nat), count ≤ fuel →
      collectAll { index := start, count := (count : Int), cb := s } fuel
        = getLoop s start count := by
  intro count
  induction count with
  | zero =>
    intro start fuel _
    cases fuel with
    | zero => rfl
    | succ f => simp [collectAll, Iterator.Next, getLoop]
  | succ n ih =>
    intro start fuel hf
    cases fuel with
    | zero => omega
    | succ f =>
      have hnext : ({ index := start, count := ((n + 1 : Nat) : Int), cb := s }
          : Iterator α).Next = true := by
        simp [Iterator.Next]
      show (if ({ index := start, count := ((n + 1 : Nat) : Int), cb := s }
          : Iterator α).Next then _ else []) = _
      rw [if_pos hnext]
      show s.data.getD start none
          :: collectAll ({ index := (if start + 1 ≥ s.size then 0 else start + 1),
                           count := ((n + 1 : Nat) : Int) - 1,
                           cb := s } : Iterator α) f
        = getLoop s start (n + 1)
      have hcast : ((n + 1 : Nat) : Int) - 1 = ((n : Nat) : Int) := by
        push_cast
        ring
      rw [hcast, ih _ f (by omega)]
      rfl

/-! ## Reads of the storage through `getD` -/

theorem getD_set_eq (l : List (Option α)) (i : Nat) (v : Option α)
    (h : i < l.length) : (l.set i v).getD i none = v := by
  rw [List.getD_eq_getElem _ _ (by simpa using h)]
  exact List.getElem_set_self _

theorem getD_set_ne (l : List (Option α)) (i j : Nat) (v : Option α)
    (h : j ≠ i) : (l.set i v).getD j none = l.getD j none := by
  by_cases hj : j < l.length
  · rw [List.getD_eq_getElem _ _ (by simpa using hj), List.getD_eq_getElem _ _ hj]
    exact List.getElem_set_ne (fun he => h he.symm) _
  · rw [List.getD_eq_default _ _ (by simpa using Nat.le_of_not_lt hj),
      List.getD_eq_default _ _ (Nat.le_of_not_lt hj)]

/-! ## The claims -/

/-- C1: for every capacity `c ≥ 1` and every sequence `xs` of appended
values (no other operations interleaved), `Get` returns exactly the
values `[n-c, n)` of the append sequence, oldest first — all of `xs` in
append order when `n < c`, the most recent `c` values when `n ≥ c`. -/
theorem c1_snapshot_content (c : Nat) (hc : 1 ≤ c) (xs : List α) :
    Get (appendAll (New α c) xs) = (xs.drop (xs.length - c)).map some :=
  Get_represents _ _ (represents_appendAll α c hc xs)

/-- Witness for C1 at `c = 3`: appending `A,B,C,D = 1,2,3,4` leaves
logical content `[B,C,D]`; appending `E = 5` next leaves `[C,D,E]`. -/
theorem c1_snapshot_content_witness :
    Get (appendAll (New Nat 3) [1, 2, 3, 4]) = [some 2, some 3, some 4]
    ∧ Get (appendAll (New Nat 3) [1, 2, 3, 4, 5]) = [some 3, some 4, some 5] := by
  constructor
  · have h := c1_snapshot_content 3 (by decide) [1, 2, 3, 4]
    simpa using h
  · have h := c1_snapshot_content 3 (by decide) [1, 2, 3, 4, 5]
    simpa using h

/-- C2: on every reachable buffer state, creating an iterator and
draining it (`Value()` while `Next()`, no intervening `Append`) collects
exactly the sequence `Get` returns, in the same oldest-to-newest
order. `s.size` steps of fuel always reach exhaustion. -/
theorem c2_iterator_matches_snapshot (s : CyclicBuffer α) (h : Reachable s) :
    collectAll (CreateIterator s) s.size = Get s := by
  obtain ⟨hlen, hidx⟩ := reachable_wf s h
  unfold CreateIterator Get
  by_cases hfull : s.full
  · rw [if_pos hfull, if_pos hfull]
    exact collectAll_eq_getLoop s s.size s.index s.size (le_refl _)
  · rw [if_neg hfull, if_neg hfull]
    exact collectAll_eq_getLoop s s.index 0 s.size hidx

/-- Witness for C2 on the reachable state after four appends into a
capacity-3 buffer. -/
theorem c2_iterator_matches_snapshot_witness :
    collectAll (CreateIterator (appendAll (New Nat 3) [1, 2, 3, 4]))
        (appendAll (New Nat 3) [1, 2, 3, 4]).size
      = Get (appendAll (New Nat 3) [1, 2, 3, 4]) :=
  c2_iterator_matches_snapshot _
    (reachable_appendAll (New Nat 3) [1, 2, 3, 4] (Reachable.new 3) (by decide))

theorem Append_eq_wrap (s : CyclicBuffer α) (x : α) (h : s.index + 1 ≥ s.size) :
    Append s x =
      ({ data := s.data.set s.index (some x), full := true,
         size := s.size, index := 0 }, 0) := by
  unfold Append
  rw [if_pos h]

theorem Append_eq_nowrap (s : CyclicBuffer α) (x : α) (h : ¬ s.index + 1 ≥ s.size) :
    Append s x =
      ({ data := s.data.set s.index (some x), full := s.full,
         size := s.size, index := s.index + 1 }, s.index + 1) := by
  unfold Append
  rw [if_neg h]

/-- C3: with an in-range write cursor `i`, `Append(value)` writes
`value` into slot `i` and touches no other slot, advances the cursor to
`(i+1) mod capacity`, returns the resulting cursor (where the next
append will land), and `full` becomes true exactly when the cursor
wraps to `0` — and is never cleared. `Append` is total: it never
fails or rejects on a full buffer. -/
theorem c3_append_spec (s : CyclicBuffer α) (x : α)
    (hlen : s.data.length = s.size) (hidx : s.index < s.size) :
    (Append s x).1.data = s.data.set s.index (some x)
    ∧ (Append s x).1.data.getD s.index none = some x
    ∧ (∀ j, j ≠ s.index → (Append s x).1.data.getD j none = s.data.getD j none)
    ∧ (Append s x).1.size = s.size
    ∧ (Append s x).1.index = (s.index + 1) % s.size
    ∧ (Append s x).2 = (Append s x).1.index
    ∧ (Append s x).1.full = (s.full || decide ((s.index + 1) % s.size = 0)) := by
  have hidx' : s.index < s.data.length := hlen ▸ hidx
  by_cases hwrap : s.index + 1 ≥ s.size
  · have hiv : s.index + 1 = s.size := le_antisymm (by omega) hwrap
    have hmod : (s.index + 1) % s.size = 0 := by
      rw [hiv, Nat.mod_self]
    rw [Append_eq_wrap s x hwrap]
    refine ⟨rfl, getD_set_eq _ _ _ hidx', fun j hj => getD_set_ne _ _ _ _ hj, rfl,
      ?_, rfl, ?_⟩
    · dsimp only
      rw [hmod]
    · dsimp only
      rw [hmod]
      simp
  · have hmod : (s.index + 1) % s.size = s.index + 1 := Nat.mod_eq_of_lt (by omega)
    rw [Append_eq_nowrap s x hwrap]
    refine ⟨rfl, getD_set_eq _ _ _ hidx', fun j hj => getD_set_ne _ _ _ _ hj, rfl,
      ?_, rfl, ?_⟩
    · dsimp only
      rw [hmod]
    · dsimp only
      rw [hmod]
      have : ¬ s.index + 1 = 0 := by omega
      simp [this]

/-- Witness for C3 on a fresh capacity-1 buffer. -/
theorem c3_append_spec_witness :
    (Append (New Nat 1) 7).1.data = (New Nat 1).data.set (New Nat 1).index (some 7)
    ∧ (Append (New Nat 1) 7).1.data.getD (New Nat 1).index none = some 7
    ∧ (∀ j, j ≠ (New Nat 1).index →
        (Append (New Nat 1) 7).1.data.getD j none = (New Nat 1).data.getD j none)
    ∧ (Append (New Nat 1) 7).1.size = (New Nat 1).size
    ∧ (Append (New Nat 1) 7).1.index = ((New Nat 1).index + 1) % (New Nat 1).size
    ∧ (Append (New Nat 1) 7).2 = (Append (New Nat 1) 7).1.index
    ∧ (Append (New Nat 1) 7).1.full
        = ((New Nat 1).full || decide (((New Nat 1).index + 1) % (New Nat 1).size = 0)) :=
  c3_append_spec (New Nat 1) 7 (by decide) (by decide)

/-- C4 (refuting exhibit): `Get` performs no lock operation, and a
concrete interleaving shows the consequence. On the capacity-2 buffer
holding `[10, 20]` (full, write cursor `0`), `Get` first computes
`start = 0, count = 2`; if `Append 30` runs before the unguarded copy
loop, the loop reads the post-append storage and returns `[30, 20]` —
which is neither the pre-append snapshot `[10, 20]` nor the post-append
snapshot `[20, 30]`: a torn view straddling the wraparound. -/
theorem c4_get_unlocked_torn_view :
    getLockTrace = []
    ∧ getLoop (Append (appendAll (New Nat 2) [10, 20]) 30).1 0 2
        ≠ Get (appendAll (New Nat 2) [10, 20])
    ∧ getLoop (Append (appendAll (New Nat 2) [10, 20]) 30).1 0 2
        ≠ Get (Append (appendAll (New Nat 2) [10, 20]) 30).1 := by
  decide

/-- C5 (refuting exhibit): `AppendSafe` acquires the buffer's
non-reentrant mutex and then calls `Append`, which acquires the same
mutex again — a nested acquisition (self-deadlock of `sync.Mutex`).
No other operation's trace nests the lock. -/
theorem c5_appendSafe_nested_lock :
    acquiresWhileHeld appendSafeLockTrace 0 = true
    ∧ acquiresWhileHeld appendLockTrace 0 = false
    ∧ acquiresWhileHeld getLockTrace 0 = false
    ∧ acquiresWhileHeld createIteratorLockTrace 0 = false
    ∧ acquiresWhileHeld valueLockTrace 0 = false
    ∧ acquiresWhileHeld emptyLockTrace 0 = false := by
  decide

/-- C6 counterexample: `New 0` returns an ordinary (zero-slot,
non-functional) buffer value — no error is reported; the function has
no error channel at all. -/
theorem c6_new_zero_returns_buffer :
    New Nat 0 = { data := [], full := false, size := 0, index := 0 } := rfl

/-- C6 amended: `New` performs no capacity validation and never returns
an error; for every capacity it returns a buffer with `capacity` unset
(`nil`) slots, write cursor `0` and `full = false`. -/
theorem c6_new_no_validation (α : Type) (c : Nat) (hc : 1 ≤ c) :
    (New α c).data = List.replicate c none
    ∧ (New α c).data.length = c
    ∧ (New α c).index = 0
    ∧ (New α c).full = false
    ∧ (∀ j, (New α c).data.getD j none = none) := by
  refine ⟨rfl, by simp [New], rfl, rfl, ?_⟩
  intro j
  show (List.replicate c (none : Option α)).getD j none = none
  by_cases hj : j < c
  · rw [List.getD_eq_getElem _ _ (by simpa using hj)]
    simp
  · rw [List.getD_eq_default _ _ (by simpa using Nat.le_of_not_lt hj)]

/-- Witness for C6 (amended) at capacity 1. -/
theorem c6_new_no_validation_witness :
    (New Nat 1).data = List.replicate 1 none
    ∧ (New Nat 1).data.length = 1
    ∧ (New Nat 1).index = 0
    ∧ (New Nat 1).full = false
    ∧ (∀ j, (New Nat 1).data.getD j none = none) :=
  c6_new_no_validation Nat 1 (by decide)

/-- C7 counterexample: on the capacity-2 buffer with one appended value,
the iterator is exhausted after one `Value()` (`Next()` is `false`),
yet a further `Value()` silently returns the unset `nil` placeholder
and drives `count` to `-1` — no error, no panic. -/
theorem c7_value_past_exhaustion_silent :
    ((CreateIterator (appendAll (New Nat 2) [10])).Value).2.Next = false
    ∧ ((((CreateIterator (appendAll (New Nat 2) [10])).Value).2).Value).1 = none
    ∧ ((((CreateIterator (appendAll (New Nat 2) [10])).Value).2).Value).2.count = -1 := by
  decide

/-- C7 amended: `Value()` performs no exhaustion check: on an exhausted
iterator it still returns the slot at the current read cursor (stale or
unset data), decrements `count` below zero, and the iterator remains
exhausted — silently, with no error or panic. -/
theorem c7_value_no_check (it : Iterator α) (h : it.Next = false) :
    (it.Value).1 = it.cb.data.getD it.index none
    ∧ ((it.Value).2).count = it.count - 1
    ∧ ((it.Value).2).Next = false := by
  refine ⟨rfl, rfl, ?_⟩
  unfold Iterator.Next at h ⊢
  rw [show ((it.Value).2).count = it.count - 1 from rfl]
  simp only [decide_eq_false_iff_not, not_lt] at h ⊢
  omega

/-- Witness for C7 (amended) on the iterator of a fresh (empty)
capacity-1 buffer, which is exhausted from the start. -/
theorem c7_value_no_check_witness :
    (CreateIterator (New Nat 1)).Next = false
    ∧ (((CreateIterator (New Nat 1)).Value).1
          = (CreateIterator (New Nat 1)).cb.data.getD (CreateIterator (New Nat 1)).index none
      ∧ (((CreateIterator (New Nat 1)).Value).2).count = (CreateIterator (New Nat 1)).count - 1
      ∧ (((CreateIterator (New Nat 1)).Value).2).Next = false) :=
  ⟨by decide, c7_value_no_check _ (by decide)⟩

/-- C8: for capacity ≥ 1, `0 ≤ writeCursor < capacity` holds after
construction and is preserved by every public operation (`Append`,
`AppendSafe`, `Get`, `CreateIterator`, `Empty`, `NotEmpty`, `GetData`,
of which only the appends mutate state); an iterator's read cursor
likewise stays in `[0, capacity)` across `Value()` calls. -/
theorem c8_cursor_invariant (c : Nat) (hc : 1 ≤ c) (s : CyclicBuffer α) (op : Op α)
    (hs : 0 < s.size) (hi : s.index < s.size)
    (it : Iterator α) (hit : it.index < it.cb.size) :
    (New α c).index < c
    ∧ (applyOp s op).size = s.size
    ∧ (applyOp s op).index < (applyOp s op).size
    ∧ ((it.Value).2).cb = it.cb
    ∧ ((it.Value).2).index < ((it.Value).2).cb.size := by
  have happ : ∀ x : α, (Append s x).1.index < (Append s x).1.size := by
    intro x
    by_cases hwrap : s.index + 1 ≥ s.size
    · rw [Append_fst_wrap s x hwrap]
      dsimp only
      omega
    · rw [Append_fst_nowrap s x hwrap]
      dsimp only
      omega
  refine ⟨by simpa [New] using hc, ?_, ?_, rfl, ?_⟩
  · cases op with
    | append x => exact Append_size s x
    | appendSafe x => exact Append_size s x
    | get => rfl
    | createIterator => rfl
    | empty => rfl
    | notEmpty => rfl
    | getData => rfl
  · cases op with
    | append x => exact happ x
    | appendSafe x => exact happ x
    | get => exact hi
    | createIterator => exact hi
    | empty => exact hi
    | notEmpty => exact hi
    | getData => exact hi
  · show (if it.index + 1 ≥ it.cb.size then 0 else it.index + 1) < it.cb.size
    by_cases hw : it.index + 1 ≥ it.cb.size
    · rw [if_pos hw]
      omega
    · rw [if_neg hw]
      omega

/-- Witness for C8 on the reachable capacity-2 buffer holding one value,
with an `Append` operation and the buffer's iterator. -/
theorem c8_cursor_invariant_witness :
    1 ≤ 2
    ∧ 0 < (appendAll (New Nat 2) [9]).size
    ∧ (appendAll (New Nat 2) [9]).index < (appendAll (New Nat 2) [9]).size
    ∧ (CreateIterator (appendAll (New Nat 2) [9])).index
        < (CreateIterator (appendAll (New Nat 2) [9])).cb.size
    ∧ ((New Nat 2).index < 2
       ∧ (applyOp (appendAll (New Nat 2) [9]) (Op.append 5)).size
           = (appendAll (New Nat 2) [9]).size
       ∧ (applyOp (appendAll (New Nat 2) [9]) (Op.append 5)).index
           < (applyOp (appendAll (New Nat 2) [9]) (Op.append 5)).size
       ∧ (((CreateIterator (appendAll (New Nat 2) [9])).Value).2).cb
           = (CreateIterator (appendAll (New Nat 2) [9])).cb
       ∧ (((CreateIterator (appendAll (New Nat 2) [9])).Value).2).index
           < (((CreateIterator (appendAll (New Nat 2) [9])).Value).2).cb.size) :=
  ⟨by decide, by decide, by decide, by decide,
   c8_cursor_invariant 2 (by decide) (appendAll (New Nat 2) [9]) (Op.append 5)
     (by decide) (by decide) (CreateIterator (appendAll (New Nat 2) [9])) (by decide)⟩

/-- C9: `Empty()` is true iff `full == false && writeCursor == 0`,
`NotEmpty()` is its negation, and after `n < c` appends into a fresh
capacity-`c` buffer, `Empty() == (n == 0)`. -/
theorem c9_empty_iff (c : Nat) (hc : 1 ≤ c) (s : CyclicBuffer α) (xs : List α)
    (hn : xs.length < c) :
    Empty s = (!s.full && decide (s.index = 0))
    ∧ NotEmpty s = !(Empty s)
    ∧ Empty (appendAll (New α c) xs) = decide (xs.length = 0) := by
  have hempty : ∀ t : CyclicBuffer α, Empty t = (!t.full && decide (t.index = 0)) := by
    intro t
    by_cases h : t.index = 0
    · simp [Empty, NotEmpty, h]
    · simp [Empty, NotEmpty, h, Nat.pos_of_ne_zero h]
  refine ⟨hempty s, by simp [Empty], ?_⟩
  have hrep := represents_appendAll α c (by omega) xs
  rw [show xs.length - c = 0 from by omega, List.drop_zero] at hrep
  have hsize : (appendAll (New α c) xs).size = c := by
    rw [appendAll_size]
    rfl
  by_cases hfull : (appendAll (New α c) xs).full
  · exfalso
    have hl := represents_length_of_full _ _ hrep hfull
    omega
  · obtain ⟨hlen, hidx, hif⟩ := hrep
    rw [if_neg hfull] at hif
    rw [Bool.not_eq_true] at hfull
    rw [hempty, hfull, hif.1]
    simp

/-- Witness for C9 on a capacity-2 buffer: general state after one
append, and the `n < c` instance with one appended value. -/
theorem c9_empty_iff_witness :
    1 ≤ 2
    ∧ ([7] : List Nat).length < 2
    ∧ (Empty (appendAll (New Nat 2) [9])
          = (!(appendAll (New Nat 2) [9]).full
              && decide ((appendAll (New Nat 2) [9]).index = 0))
      ∧ NotEmpty (appendAll (New Nat 2) [9]) = !(Empty (appendAll (New Nat 2) [9]))
      ∧ Empty (appendAll (New Nat 2) [7]) = decide (([7] : List Nat).length = 0)) :=
  ⟨by decide, by decide,
   c9_empty_iff 2 (by decide) (appendAll (New Nat 2) [9]) [7] (by decide)⟩

/-- C10: the `full` flag starts false at construction, every public
operation preserves `full = true` (it is never cleared), and every
operation other than the two appends leaves the whole state — `full`
included — untouched. -/
theorem c10_full_monotone (c : Nat) (s t : CyclicBuffer α) (op op2 : Op α)
    (hf : s.full = true) (hro : op2.isAppend = false) :
    (New α c).full = false ∧ (applyOp s op).full = true ∧ applyOp t op2 = t := by
  have happ : ∀ x : α, (Append s x).1.full = true := by
    intro x
    by_cases hwrap : s.index + 1 ≥ s.size
    · rw [Append_fst_wrap s x hwrap]
    · rw [Append_fst_nowrap s x hwrap]
      exact hf
  refine ⟨rfl, ?_, ?_⟩
  · cases op with
    | append x => exact happ x
    | appendSafe x => exact happ x
    | get => exact hf
    | createIterator => exact hf
    | empty => exact hf
    | notEmpty => exact hf
    | getData => exact hf
  · cases op2 with
    | append x => simp [Op.isAppend] at hro
    | appendSafe x => simp [Op.isAppend] at hro
    | get => rfl
    | createIterator => rfl
    | empty => rfl
    | notEmpty => rfl
    | getData => rfl

/-- Witness for C10 on the full capacity-1 buffer, a further `Append`,
and a read-only `Get` on a fresh capacity-3 buffer. -/
theorem c10_full_monotone_witness :
    (appendAll (New Nat 1) [4]).full = true
    ∧ (Op.get : Op Nat).isAppend = false
    ∧ ((New Nat 2).full = false
       ∧ (applyOp (appendAll (New Nat 1) [4]) (Op.append 5)).full = true
       ∧ applyOp (New Nat 3) (Op.get : Op Nat) = New Nat 3) :=
  ⟨by decide, by decide,
   c10_full_monotone 2 (appendAll (New Nat 1) [4]) (New Nat 3)
     (Op.append 5) Op.get (by decide) (by decide)⟩

end CyclicBufferPkg
